import Mathlib

/-!
Verification of the recursive schema-tree model and serializer of
`src/frontend/src/components/cpy.js` (a React JSON-schema builder).

The data model and every operation below are transcribed from the source
file: `createNewField`, `convertToJSON`, `handleKeyUpdate`,
`handleTypeChange`, `toggleCollapsed`, and the sibling-list editing
handlers (`handleFieldUpdate` / `handleFieldDelete` / `handleAddField` /
`handleAddNestedField` / `handleNestedFieldUpdate` /
`handleNestedFieldDelete`).  A JS field object
`{id, key, type, children, collapsed}` is modelled with `Option` for the
two properties the code can leave `undefined` or `delete`; a JS object
built by `result[key] = v` assignments is modelled as an association
list where assignment overwrites in place (JS objects keep the original
insertion position on re-assignment).
-/

namespace Schema

/-- The three values of the `type` property used by the source
(`'String'`, `'Number'`, `'Nested'`). -/
inductive FieldType where
  | string
  | number
  | nested
deriving DecidableEq, Repr

/-- A field node, as built by the source: `id` and `key` are strings,
`children` is an array or `undefined`, `collapsed` is a boolean or
`undefined` (after `delete updatedField.collapsed`). -/
inductive Field where
  | mk (id : String) (key : String) (type : FieldType)
       (children : Option (List Field)) (collapsed : Option Bool)

def Field.id : Field → String
  | .mk i _ _ _ _ => i

def Field.key : Field → String
  | .mk _ k _ _ _ => k

def Field.type : Field → FieldType
  | .mk _ _ t _ _ => t

def Field.children : Field → Option (List Field)
  | .mk _ _ _ c _ => c

def Field.collapsed : Field → Option Bool
  | .mk _ _ _ _ c => c

/-- JS truthiness of the `collapsed` property: `undefined` is falsy. -/
def jsTruthy : Option Bool → Bool
  | some b => b
  | none => false

/-- JS `String.prototype.trim`: strip whitespace from both ends. -/
def jsTrim (s : String) : String :=
  ⟨((s.data.dropWhile Char.isWhitespace).reverse.dropWhile Char.isWhitespace).reverse⟩

/-- `createNewField` (cpy.js line 7): fresh id, empty key, the given
type, `children: type === 'Nested' ? [] : undefined`, and
`collapsed: false` for every type.  The generated id is a parameter
here; id generation itself is modelled in `runOps` below. -/
def createNewField (id : String) (type : FieldType) : Field :=
  .mk id "" type (if type = .nested then some [] else none) (some false)

/-- A JSON value as produced by `convertToJSON`: the sentinel string
`"string"`, the sentinel number `42`, or an object. -/
inductive JValue where
  | str (s : String)
  | num (n : Nat)
  | obj (entries : List (String × JValue))

/-- The JS assignment `result[key] = v` on an object represented as an
association list: overwrite in place if the key is present, else append. -/
def objInsert : List (String × JValue) → String → JValue → List (String × JValue)
  | [], k, v => [(k, v)]
  | (k', v') :: rest, k, v =>
    if k' = k then (k, v) :: rest else (k', v') :: objInsert rest k v

/-- Property read `result[key]` on the association-list representation. -/
def objLookup : List (String × JValue) → String → Option JValue
  | [], _ => none
  | (k', v') :: rest, k => if k' = k then some v' else objLookup rest k

/-- The `fields.forEach` loop of `convertToJSON` (cpy.js line 15), with
the object built so far as accumulator.  A `'Nested'` field is entered
only when `field.children` is truthy (defined); a nested field with
`children` undefined contributes nothing. -/
def convertAux : List Field → List (String × JValue) → List (String × JValue)
  | [], acc => acc
  | .mk _ k .string _ _ :: rest, acc => convertAux rest (objInsert acc k (.str "string"))
  | .mk _ k .number _ _ :: rest, acc => convertAux rest (objInsert acc k (.num 42))
  | .mk _ k .nested (some cs) _ :: rest, acc =>
      convertAux rest (objInsert acc k (.obj (convertAux cs [])))
  | .mk _ _ .nested none _ :: rest, acc => convertAux rest acc

/-- `convertToJSON` (cpy.js line 15): start from the empty object. -/
def convertToJSON (fields : List Field) : List (String × JValue) :=
  convertAux fields []

/-- The entry a single field contributes to the object under
construction, if any. -/
def entryOf : Field → Option JValue
  | .mk _ _ .string _ _ => some (.str "string")
  | .mk _ _ .number _ _ => some (.num 42)
  | .mk _ _ .nested (some cs) _ => some (.obj (convertToJSON cs))
  | .mk _ _ .nested none _ => none

/-- One iteration of the `forEach` body of `convertToJSON`. -/
def convertStep (f : Field) (acc : List (String × JValue)) : List (String × JValue) :=
  match entryOf f with
  | some v => objInsert acc f.key v
  | none => acc

/-- `handleKeyUpdate` (cpy.js line 36): if the trimmed edit value is
truthy (non-empty) the field's key becomes the trimmed value, otherwise
the update is dropped and the field is unchanged. -/
def handleKeyUpdate (f : Field) (editValue : String) : Field :=
  if jsTrim editValue = "" then f
  else .mk f.id (jsTrim editValue) f.type f.children f.collapsed

/-- `handleTypeChange` (cpy.js line 45): copy the field with the new
type; for `'Nested'` set `children = []` and `collapsed = false`,
otherwise `delete` both properties. -/
def handleTypeChange (newType : FieldType) (f : Field) : Field :=
  if newType = .nested then .mk f.id f.key newType (some []) (some false)
  else .mk f.id f.key newType none none

/-- `toggleCollapsed` (cpy.js line 79): copy the field with
`collapsed: !field.collapsed` (JS negation of a possibly-undefined
boolean). -/
def toggleCollapsed (f : Field) : Field :=
  .mk f.id f.key f.type f.children (some (! jsTruthy f.collapsed))

/-- The spread `{...field, children: cs}` used by the nested-edit
handlers. -/
def setChildren (f : Field) (cs : List Field) : Field :=
  .mk f.id f.key f.type (some cs) f.collapsed

/-- `handleFieldUpdate` / `handleNestedFieldUpdate`: replace the element
at `index` in a sibling array (indices produced by the UI are always in
range; out of range leaves the list unchanged). -/
def updateField (fields : List Field) (index : Nat) (f : Field) : List Field :=
  fields.set index f

/-- `handleFieldDelete` / `handleNestedFieldDelete`:
`fields.filter((_, i) => i !== index)`, i.e. drop the element at
`index`. -/
def deleteField (fields : List Field) (index : Nat) : List Field :=
  fields.eraseIdx index

/-- Apply an update operation `g` to the node addressed by a path of
child indices, rebuilding every ancestor with `{...field, children:
newChildren}` exactly as the chain of `onUpdate` callbacks does
(`handleNestedFieldUpdate` recurses only when `field.children` is
truthy).  An unreachable path leaves the tree unchanged. -/
def applyAtPath (g : Field → Field) : List Field → List Nat → List Field
  | fields, [] => fields
  | fields, i :: rest =>
    match fields[i]? with
    | none => fields
    | some f =>
      match rest with
      | [] => fields.set i (g f)
      | _ :: _ =>
        match f.children with
        | some cs => fields.set i (setChildren f (applyAtPath g cs rest))
        | none => fields

/-- The node addressed by a path of child indices, if it exists. -/
def nodeAtPath : List Field → List Nat → Option Field
  | _, [] => none
  | fields, i :: rest =>
    match fields[i]? with
    | none => none
    | some f =>
      match rest with
      | [] => some f
      | _ :: _ =>
        match f.children with
        | some cs => nodeAtPath cs rest
        | none => none

/-- Delete the node addressed by a path: `handleFieldDelete` /
`handleNestedFieldDelete` at the addressed position, with the ancestor
chain rebuilt by the `onUpdate` callbacks. -/
def deleteAt : List Field → List Nat → List Field
  | fields, [] => fields
  | fields, i :: rest =>
    match rest with
    | [] => fields.eraseIdx i
    | _ :: _ =>
      match fields[i]? with
      | none => fields
      | some f =>
        match f.children with
        | some cs => fields.set i (setChildren f (deleteAt cs rest))
        | none => fields

/-- `handleAddNestedField` (cpy.js line 57) at the node addressed by the
path: if that node's type is `'Nested'`, append
`createNewField()` (type `'String'`) to `field.children || []`.  The
returned boolean records whether a field was actually created (the
source calls `generateId` only in that case). -/
def addChildAt (newId : String) : List Field → List Nat → List Field × Bool
  | fields, [] => (fields, false)
  | fields, i :: rest =>
    match fields[i]? with
    | none => (fields, false)
    | some f =>
      match rest with
      | [] =>
        if f.type = .nested then
          (fields.set i
            (.mk f.id f.key f.type
              (some ((f.children.getD []) ++ [createNewField newId .string])) f.collapsed),
           true)
        else (fields, false)
      | _ :: _ =>
        match f.children with
        | some cs =>
          let r := addChildAt newId cs rest
          (fields.set i (setChildren f r.1), r.2)
        | none => (fields, false)

/-- The create / retype / delete commands the editor dispatches:
`handleAddField`/`addFieldWithType` at the root, `handleAddNestedField`
at a nested node, `handleTypeChange` at a node, and field deletion at a
node. -/
inductive Op where
  | addRoot (type : FieldType)
  | addChild (path : List Nat)
  | retype (path : List Nat) (type : FieldType)
  | delete (path : List Nat)

/-- The editor's state: the root sibling array plus a counter of how
many ids have been generated so far. -/
structure EditorState where
  fields : List Field
  counter : Nat

/-- Apply one command.  `generateId` (cpy.js line 5) is a call to
`Math.random`; its successive return values are modelled by the
`supply` oracle, consumed in order. -/
def applyOp (supply : Nat → String) (s : EditorState) : Op → EditorState
  | .addRoot t => ⟨s.fields ++ [createNewField (supply s.counter) t], s.counter + 1⟩
  | .addChild path =>
      let r := addChildAt (supply s.counter) s.fields path
      ⟨r.1, if r.2 then s.counter + 1 else s.counter⟩
  | .retype path t => ⟨applyAtPath (handleTypeChange t) s.fields path, s.counter⟩
  | .delete path => ⟨deleteAt s.fields path, s.counter⟩

/-- Run a command sequence from the empty tree. -/
def runOps (supply : Nat → String) (ops : List Op) : EditorState :=
  ops.foldl (applyOp supply) ⟨[], 0⟩

mutual

/-- All ids in a field's subtree: its own id followed by the ids of its
children, depth first. -/
def fieldIds : Field → List String
  | .mk i _ _ none _ => [i]
  | .mk i _ _ (some cs) _ => i :: listIds cs

/-- All ids in a forest of fields, depth first. -/
def listIds : List Field → List String
  | [] => []
  | f :: rest => fieldIds f ++ listIds rest

end

/-- Containers (recursively) all have a defined `children` array.  Every
tree the editor can actually build satisfies this; the serializer's
guard `field.children` only matters outside of it. -/
def containersHaveChildren : List Field → Bool
  | [] => true
  | .mk _ _ .nested none _ :: _ => false
  | .mk _ _ .nested (some cs) _ :: rest =>
      containersHaveChildren cs && containersHaveChildren rest
  | .mk _ _ .string _ _ :: rest => containersHaveChildren rest
  | .mk _ _ .number _ _ :: rest => containersHaveChildren rest

/-- The serializer exactly as the specification words it: for each node
in order, a `String` node maps `key → "string"`, a `Number` node maps
`key → 42`, and a `Container` node maps `key → serialize(children)`
recursively.  (The specification's data model gives every container a
defined children sequence; a container without one is treated as having
no children here, and the comparison theorem assumes
`containersHaveChildren`.) -/
def serializeSpecAux : List Field → List (String × JValue) → List (String × JValue)
  | [], acc => acc
  | .mk _ k .string _ _ :: rest, acc =>
      serializeSpecAux rest (objInsert acc k (.str "string"))
  | .mk _ k .number _ _ :: rest, acc =>
      serializeSpecAux rest (objInsert acc k (.num 42))
  | .mk _ k .nested (some cs) _ :: rest, acc =>
      serializeSpecAux rest (objInsert acc k (.obj (serializeSpecAux cs [])))
  | .mk _ k .nested none _ :: rest, acc =>
      serializeSpecAux rest (objInsert acc k (.obj []))

/-- Entry point of the specification-side serializer. -/
def serializeSpec (fields : List Field) : List (String × JValue) :=
  serializeSpecAux fields []

/-! Basic structure lemmas about the serializer. -/

theorem convertAux_nil (acc : List (String × JValue)) : convertAux [] acc = acc := by
  simp [convertAux]

theorem convertStep_def (f : Field) (acc : List (String × JValue)) :
    convertStep f acc = match entryOf f with
      | some v => objInsert acc f.key v
      | none => acc := rfl

theorem convertAux_cons (f : Field) (rest : List Field) (acc : List (String × JValue)) :
    convertAux (f :: rest) acc = convertAux rest (convertStep f acc) := by
  rcases f with ⟨i, k, t, c, cl⟩
  rcases t <;> rcases c <;>
    simp [convertAux, convertStep, entryOf, convertToJSON, Field.key]

theorem convertAux_append (l₁ l₂ : List Field) (acc : List (String × JValue)) :
    convertAux (l₁ ++ l₂) acc = convertAux l₂ (convertAux l₁ acc) := by
  induction l₁ generalizing acc with
  | nil => simp [convertAux_nil]
  | cons f rest ih => simp [convertAux_cons, ih]

theorem objLookup_objInsert_self (acc : List (String × JValue)) (k : String) (v : JValue) :
    objLookup (objInsert acc k v) k = some v := by
  induction acc with
  | nil => simp [objInsert, objLookup]
  | cons e rest ih =>
    rcases e with ⟨k', v'⟩
    by_cases h : k' = k <;> simp [objInsert, objLookup, h, ih]

theorem objLookup_objInsert_ne (acc : List (String × JValue)) (k k' : String) (v : JValue)
    (h : k' ≠ k) : objLookup (objInsert acc k v) k' = objLookup acc k' := by
  induction acc with
  | nil => simp [objInsert, objLookup, Ne.symm h]
  | cons e rest ih =>
    rcases e with ⟨k'', v''⟩
    by_cases h2 : k'' = k <;> by_cases h3 : k'' = k' <;>
      simp_all [objInsert, objLookup]

theorem objLookup_convertStep_ne (f : Field) (acc : List (String × JValue)) (k : String)
    (h : f.key ≠ k) : objLookup (convertStep f acc) k = objLookup acc k := by
  rw [convertStep_def]
  cases entryOf f with
  | none => rfl
  | some v => exact objLookup_objInsert_ne acc f.key k v (Ne.symm h)

theorem objLookup_convertAux_of_no_key (l : List Field) (acc : List (String × JValue))
    (k : String) (h : ∀ g ∈ l, g.key ≠ k) :
    objLookup (convertAux l acc) k = objLookup acc k := by
  induction l generalizing acc with
  | nil => simp [convertAux_nil]
  | cons f rest ih =>
    rw [convertAux_cons, ih _ fun g hg => h g (List.mem_cons_of_mem f hg),
      objLookup_convertStep_ne f acc k (h f (List.mem_cons_self f rest))]

/-! Subperm helper lemmas. -/

theorem subperm_append {l₁ l₂ r₁ r₂ : List String} (hl : List.Subperm l₁ l₂)
    (hr : List.Subperm r₁ r₂) : List.Subperm (l₁ ++ r₁) (l₂ ++ r₂) := by
  obtain ⟨wl, hpl, hsl⟩ := hl
  obtain ⟨wr, hpr, hsr⟩ := hr
  exact ⟨wl ++ wr, hpl.append hpr, hsl.append hsr⟩

theorem subperm_cons_cons {l₁ l₂ : List String} (a : String) (h : List.Subperm l₁ l₂) :
    List.Subperm (a :: l₁) (a :: l₂) := by
  obtain ⟨w, hp, hs⟩ := h
  exact ⟨a :: w, hp.cons a, hs.cons₂ a⟩

theorem subperm_of_perm_right {l₁ l₂ l₃ : List String} (h : List.Subperm l₁ l₂)
    (hp : List.Perm l₂ l₃) : List.Subperm l₁ l₃ := h.trans hp.subperm

theorem subperm_nodup {l₁ l₂ : List String} (h : List.Subperm l₁ l₂) (hn : l₂.Nodup) :
    l₁.Nodup := by
  obtain ⟨w, hp, hs⟩ := h
  exact hp.nodup_iff.mp (hs.nodup hn)

/-! Lemmas about the ids contained in a tree. -/

theorem listIds_nil : listIds [] = [] := by simp [listIds]

theorem listIds_cons (f : Field) (rest : List Field) :
    listIds (f :: rest) = fieldIds f ++ listIds rest := by simp [listIds]

theorem listIds_append (l₁ l₂ : List Field) :
    listIds (l₁ ++ l₂) = listIds l₁ ++ listIds l₂ := by
  induction l₁ with
  | nil => simp [listIds_nil]
  | cons f rest ih => simp [listIds_cons, ih]

theorem fieldIds_eq_cons (f : Field) : ∃ tl, fieldIds f = f.id :: tl := by
  rcases f with ⟨i, k, t, c, cl⟩
  cases c with
  | none => exact ⟨[], by simp [fieldIds, Field.id]⟩
  | some cs => exact ⟨listIds cs, by simp [fieldIds, Field.id]⟩

theorem fieldIds_mk_none (i k : String) (t : FieldType) (cl : Option Bool) :
    fieldIds (.mk i k t none cl) = [i] := by simp [fieldIds]

theorem fieldIds_mk_some (i k : String) (t : FieldType) (cs : List Field) (cl : Option Bool) :
    fieldIds (.mk i k t (some cs) cl) = i :: listIds cs := by simp [fieldIds]

theorem fieldIds_setChildren (f : Field) (cs : List Field) :
    fieldIds (setChildren f cs) = f.id :: listIds cs := by
  simp [setChildren, fieldIds_mk_some]

theorem fieldIds_createNewField (id : String) (t : FieldType) :
    fieldIds (createNewField id t) = [id] := by
  rcases t <;> simp [createNewField, fieldIds_mk_none, fieldIds_mk_some, listIds_nil]

theorem listIds_sublist {l₁ l₂ : List Field} (h : List.Sublist l₁ l₂) :
    List.Sublist (listIds l₁) (listIds l₂) := by
  induction h with
  | slnil => exact List.Sublist.refl _
  | cons g _ ih =>
    rw [listIds_cons]
    exact ih.trans (List.sublist_append_right _ _)
  | cons₂ g _ ih =>
    rw [listIds_cons, listIds_cons]
    exact List.Sublist.append (List.Sublist.refl _) ih

theorem listIds_set_subperm (fields : List Field) (i : Nat) (f' : Field) (extra : List String)
    (h : ∀ f, fields[i]? = some f →
      List.Subperm (fieldIds f') (fieldIds f ++ extra)) :
    List.Subperm (listIds (fields.set i f')) (listIds fields ++ extra) := by
  induction fields generalizing i with
  | nil => simp [listIds_nil]
  | cons g rest ih =>
    cases i with
    | zero =>
      have hg := h g (by simp)
      simp only [List.set_cons_zero, listIds_cons]
      have h1 : List.Subperm (fieldIds f' ++ listIds rest)
          ((fieldIds g ++ extra) ++ listIds rest) :=
        subperm_append hg (List.Subperm.refl _)
      refine subperm_of_perm_right h1 ?_
      rw [List.append_assoc, List.append_assoc]
      exact List.Perm.append_left _ List.perm_append_comm
    | succ n =>
      simp only [List.set_cons_succ, listIds_cons, List.append_assoc]
      exact subperm_append (List.Subperm.refl _) (ih n (fun f hf => h f (by simpa using hf)))

theorem listIds_set_subperm' (fields : List Field) (i : Nat) (f' : Field)
    (h : ∀ f, fields[i]? = some f → List.Subperm (fieldIds f') (fieldIds f)) :
    List.Subperm (listIds (fields.set i f')) (listIds fields) := by
  simpa using listIds_set_subperm fields i f' [] (fun f hf => by simpa using h f hf)

/-! Conditional equation lemmas for the path-addressed operations. -/

theorem applyAtPath_nil (g : Field → Field) (fields : List Field) :
    applyAtPath g fields [] = fields := by simp [applyAtPath]

theorem applyAtPath_oob (g : Field → Field) (fields : List Field) (i : Nat) (rest : List Nat)
    (h : fields[i]? = none) : applyAtPath g fields (i :: rest) = fields := by
  cases rest <;> simp [applyAtPath, h]

theorem applyAtPath_last (g : Field → Field) (fields : List Field) (i : Nat) (f : Field)
    (h : fields[i]? = some f) : applyAtPath g fields [i] = fields.set i (g f) := by
  simp [applyAtPath, h]

theorem applyAtPath_go (g : Field → Field) (fields : List Field) (i j : Nat)
    (rest : List Nat) (f : Field) (cs : List Field)
    (h : fields[i]? = some f) (hc : f.children = some cs) :
    applyAtPath g fields (i :: j :: rest) =
      fields.set i (setChildren f (applyAtPath g cs (j :: rest))) := by
  simp [applyAtPath, h, hc]

theorem applyAtPath_noChildren (g : Field → Field) (fields : List Field) (i j : Nat)
    (rest : List Nat) (f : Field) (h : fields[i]? = some f) (hc : f.children = none) :
    applyAtPath g fields (i :: j :: rest) = fields := by
  simp [applyAtPath, h, hc]

theorem deleteAt_nil (fields : List Field) : deleteAt fields [] = fields := by
  simp [deleteAt]

theorem deleteAt_last (fields : List Field) (i : Nat) :
    deleteAt fields [i] = fields.eraseIdx i := by simp [deleteAt]

theorem deleteAt_oob (fields : List Field) (i j : Nat) (rest : List Nat)
    (h : fields[i]? = none) : deleteAt fields (i :: j :: rest) = fields := by
  simp [deleteAt, h]

theorem deleteAt_go (fields : List Field) (i j : Nat) (rest : List Nat) (f : Field)
    (cs : List Field) (h : fields[i]? = some f) (hc : f.children = some cs) :
    deleteAt fields (i :: j :: rest) =
      fields.set i (setChildren f (deleteAt cs (j :: rest))) := by
  simp [deleteAt, h, hc]

theorem deleteAt_noChildren (fields : List Field) (i j : Nat) (rest : List Nat) (f : Field)
    (h : fields[i]? = some f) (hc : f.children = none) :
    deleteAt fields (i :: j :: rest) = fields := by
  simp [deleteAt, h, hc]

theorem addChildAt_nil (newId : String) (fields : List Field) :
    addChildAt newId fields [] = (fields, false) := by simp [addChildAt]

theorem addChildAt_oob (newId : String) (fields : List Field) (i : Nat) (rest : List Nat)
    (h : fields[i]? = none) : addChildAt newId fields (i :: rest) = (fields, false) := by
  cases rest <;> simp [addChildAt, h]

theorem addChildAt_last_nested (newId : String) (fields : List Field) (i : Nat) (f : Field)
    (h : fields[i]? = some f) (ht : f.type = .nested) :
    addChildAt newId fields [i] =
      (fields.set i
        (.mk f.id f.key f.type
          (some ((f.children.getD []) ++ [createNewField newId .string])) f.collapsed),
       true) := by
  simp [addChildAt, h, ht]

theorem addChildAt_last_primitive (newId : String) (fields : List Field) (i : Nat) (f : Field)
    (h : fields[i]? = some f) (ht : f.type ≠ .nested) :
    addChildAt newId fields [i] = (fields, false) := by
  simp [addChildAt, h, ht]

theorem addChildAt_go (newId : String) (fields : List Field) (i j : Nat) (rest : List Nat)
    (f : Field) (cs : List Field) (h : fields[i]? = some f) (hc : f.children = some cs) :
    addChildAt newId fields (i :: j :: rest) =
      ((fields.set i (setChildren f (addChildAt newId cs (j :: rest)).1)),
       (addChildAt newId cs (j :: rest)).2) := by
  simp [addChildAt, h, hc]

theorem addChildAt_noChildren (newId : String) (fields : List Field) (i j : Nat)
    (rest : List Nat) (f : Field) (h : fields[i]? = some f) (hc : f.children = none) :
    addChildAt newId fields (i :: j :: rest) = (fields, false) := by
  simp [addChildAt, h, hc]

theorem nodeAtPath_last (fields : List Field) (i : Nat) :
    nodeAtPath fields [i] = fields[i]? := by
  cases h : fields[i]? <;> simp [nodeAtPath, h]

/-! Id-subperm lemmas for the path-addressed operations. -/

theorem applyAtPath_ids_subperm (g : Field → Field)
    (hg : ∀ f, List.Subperm (fieldIds (g f)) (fieldIds f)) :
    ∀ (path : List Nat) (fields : List Field),
      List.Subperm (listIds (applyAtPath g fields path)) (listIds fields) := by
  intro path
  induction path with
  | nil => intro fields; rw [applyAtPath_nil]
  | cons i rest ih =>
    intro fields
    cases hfi : fields[i]? with
    | none => rw [applyAtPath_oob g fields i rest hfi]
    | some f =>
      cases rest with
      | nil =>
        rw [applyAtPath_last g fields i f hfi]
        exact listIds_set_subperm' fields i (g f)
          (fun f0 h0 => by rw [hfi] at h0; cases h0; exact hg f)
      | cons j rest' =>
        cases hc : f.children with
        | none => rw [applyAtPath_noChildren g fields i j rest' f hfi hc]
        | some cs =>
          rw [applyAtPath_go g fields i j rest' f cs hfi hc]
          refine listIds_set_subperm' fields i _ (fun f0 h0 => ?_)
          rw [hfi] at h0; cases h0
          rw [fieldIds_setChildren]
          rcases f with ⟨fi, fk, ft, fc, fcl⟩
          cases hc
          rw [fieldIds_mk_some]
          exact subperm_cons_cons _ (ih cs)

theorem deleteAt_ids_subperm :
    ∀ (path : List Nat) (fields : List Field),
      List.Subperm (listIds (deleteAt fields path)) (listIds fields) := by
  intro path
  induction path with
  | nil => intro fields; rw [deleteAt_nil]
  | cons i rest ih =>
    intro fields
    cases rest with
    | nil =>
      rw [deleteAt_last]
      exact (listIds_sublist (List.eraseIdx_sublist fields i)).subperm
    | cons j rest' =>
      cases hfi : fields[i]? with
      | none => rw [deleteAt_oob fields i j rest' hfi]
      | some f =>
        cases hc : f.children with
        | none => rw [deleteAt_noChildren fields i j rest' f hfi hc]
        | some cs =>
          rw [deleteAt_go fields i j rest' f cs hfi hc]
          refine listIds_set_subperm' fields i _ (fun f0 h0 => ?_)
          rw [hfi] at h0; cases h0
          rw [fieldIds_setChildren]
          rcases f with ⟨fi, fk, ft, fc, fcl⟩
          cases hc
          rw [fieldIds_mk_some]
          exact subperm_cons_cons _ (ih cs)

theorem set_self (l : List Field) (i : Nat) (f : Field) (h : l[i]? = some f) :
    l.set i f = l := by
  induction l generalizing i with
  | nil => simp at h
  | cons g rest ih =>
    cases i with
    | zero => simp at h; simp [h]
    | succ n =>
      simp only [List.getElem?_cons_succ] at h
      simp [ih n h]

theorem setChildren_self (f : Field) (cs : List Field) (h : f.children = some cs) :
    setChildren f cs = f := by
  rcases f with ⟨i, k, t, c, cl⟩
  simp only [Field.children] at h
  subst h
  rfl

theorem fieldIds_handleTypeChange (t : FieldType) (f : Field) :
    fieldIds (handleTypeChange t f) = [f.id] := by
  by_cases ht : t = .nested <;>
    simp [handleTypeChange, ht, fieldIds_mk_none, fieldIds_mk_some, listIds_nil, Field.id]

theorem handleTypeChange_ids_subperm (t : FieldType) (f : Field) :
    List.Subperm (fieldIds (handleTypeChange t f)) (fieldIds f) := by
  rw [fieldIds_handleTypeChange]
  obtain ⟨tl, htl⟩ := fieldIds_eq_cons f
  rw [htl]
  exact subperm_cons_cons _ List.nil_subperm

theorem addChildAt_ids (newId : String) :
    ∀ (path : List Nat) (fields : List Field),
      addChildAt newId fields path = (fields, false) ∨
      ((addChildAt newId fields path).2 = true ∧
        List.Subperm (listIds (addChildAt newId fields path).1)
          (listIds fields ++ [newId])) := by
  intro path
  induction path with
  | nil => intro fields; exact Or.inl (addChildAt_nil newId fields)
  | cons i rest ih =>
    intro fields
    cases hfi : fields[i]? with
    | none => exact Or.inl (addChildAt_oob newId fields i rest hfi)
    | some f =>
      cases rest with
      | nil =>
        by_cases ht : f.type = .nested
        · right
          rw [addChildAt_last_nested newId fields i f hfi ht]
          refine ⟨rfl, ?_⟩
          refine listIds_set_subperm fields i _ [newId] (fun f0 h0 => ?_)
          rw [hfi] at h0; cases h0
          rcases f with ⟨fi, fk, ft, fc, fcl⟩
          cases fc with
          | none =>
            simp only [Field.id, Field.key, Field.type, Field.children, Field.collapsed,
              Option.getD_none, List.nil_append, fieldIds_mk_some, fieldIds_mk_none,
              listIds_cons, listIds_nil, fieldIds_createNewField, List.append_nil,
              List.cons_append]
            exact List.Subperm.refl _
          | some cs =>
            simp only [Field.id, Field.key, Field.type, Field.children, Field.collapsed,
              Option.getD_some, fieldIds_mk_some, listIds_append, listIds_cons,
              listIds_nil, fieldIds_createNewField, List.append_nil, List.cons_append]
            exact List.Subperm.refl _
        · exact Or.inl (addChildAt_last_primitive newId fields i f hfi ht)
      | cons j rest' =>
        cases hc : f.children with
        | none => exact Or.inl (addChildAt_noChildren newId fields i j rest' f hfi hc)
        | some cs =>
          rw [addChildAt_go newId fields i j rest' f cs hfi hc]
          rcases ih cs with hl | ⟨hb, hs⟩
          · left
            rw [hl]
            simp only
            rw [setChildren_self f cs hc, set_self fields i f hfi]
          · right
            refine ⟨hb, ?_⟩
            refine listIds_set_subperm fields i _ [newId] (fun f0 h0 => ?_)
            rw [hfi] at h0; cases h0
            rw [fieldIds_setChildren]
            rcases f with ⟨fi, fk, ft, fc, fcl⟩
            cases hc
            rw [fieldIds_mk_some, List.cons_append]
            exact subperm_cons_cons _ hs

/-! The editor's id invariant: every id in the tree was produced by the
id supply, and no id occurs twice. -/

theorem applyOp_counter_le (supply : Nat → String) (s : EditorState) (op : Op) :
    s.counter ≤ (applyOp supply s op).counter := by
  cases op with
  | addRoot t => simp [applyOp]
  | addChild path => simp only [applyOp]; split <;> simp
  | retype path t => exact le_refl _
  | delete path => exact le_refl _

theorem foldl_counter_le (supply : Nat → String) :
    ∀ (ops : List Op) (s : EditorState),
      s.counter ≤ (ops.foldl (applyOp supply) s).counter := by
  intro ops
  induction ops with
  | nil => intro s; exact le_refl _
  | cons op rest ih =>
    intro s
    rw [List.foldl_cons]
    exact (applyOp_counter_le supply s op).trans (ih _)

theorem applyOp_inv (supply : Nat → String) (N : Nat)
    (hsup : ∀ i j, i < j → j < N → supply i ≠ supply j)
    (s : EditorState) (op : Op)
    (hle : (applyOp supply s op).counter ≤ N)
    (hnd : (listIds s.fields).Nodup)
    (hmem : ∀ id ∈ listIds s.fields, ∃ k, k < s.counter ∧ supply k = id) :
    (listIds (applyOp supply s op).fields).Nodup ∧
      ∀ id ∈ listIds (applyOp supply s op).fields,
        ∃ k, k < (applyOp supply s op).counter ∧ supply k = id := by
  have fresh_nodup : s.counter < N →
      (listIds s.fields ++ [supply s.counter]).Nodup := by
    intro hcnt
    refine hnd.append (List.nodup_singleton _) (fun x hx hx1 => ?_)
    simp only [List.mem_singleton] at hx1
    subst hx1
    obtain ⟨k, hk, he⟩ := hmem _ hx
    exact hsup k s.counter hk hcnt he
  cases op with
  | addRoot t =>
    have hcnt : s.counter < N := by
      simp only [applyOp] at hle; omega
    constructor
    · simp only [applyOp, listIds_append, listIds_cons, listIds_nil,
        fieldIds_createNewField, List.append_nil]
      exact fresh_nodup hcnt
    · intro id hid
      simp only [applyOp, listIds_append, listIds_cons, listIds_nil,
        fieldIds_createNewField, List.append_nil, List.mem_append,
        List.mem_singleton] at hid
      rcases hid with hid | hid
      · obtain ⟨k, hk, he⟩ := hmem _ hid
        exact ⟨k, by simp only [applyOp]; omega, he⟩
      · exact ⟨s.counter, by simp only [applyOp]; omega, hid.symm⟩
  | addChild path =>
    rcases addChildAt_ids (supply s.counter) path s.fields with hl | ⟨hb, hs⟩
    · constructor
      · simpa only [applyOp, hl] using hnd
      · intro id hid
        simp only [applyOp, hl] at hid ⊢
        obtain ⟨k, hk, he⟩ := hmem _ hid
        exact ⟨k, by simp; omega, he⟩
    · have hcnt : s.counter < N := by
        simp only [applyOp, hb, if_true] at hle; omega
      constructor
      · simp only [applyOp]
        exact subperm_nodup hs (fresh_nodup hcnt)
      · intro id hid
        simp only [applyOp] at hid ⊢
        have := hs.subset hid
        simp only [List.mem_append, List.mem_singleton] at this
        rcases this with hid' | hid'
        · obtain ⟨k, hk, he⟩ := hmem _ hid'
          exact ⟨k, by rw [hb]; simp; omega, he⟩
        · exact ⟨s.counter, by rw [hb]; simp, hid'.symm⟩
  | retype path t =>
    constructor
    · exact subperm_nodup
        (applyAtPath_ids_subperm (handleTypeChange t)
          (handleTypeChange_ids_subperm t) path s.fields) hnd
    · intro id hid
      exact hmem _
        ((applyAtPath_ids_subperm (handleTypeChange t)
          (handleTypeChange_ids_subperm t) path s.fields).subset hid)
  | delete path =>
    constructor
    · exact subperm_nodup (deleteAt_ids_subperm path s.fields) hnd
    · intro id hid
      exact hmem _ ((deleteAt_ids_subperm path s.fields).subset hid)

theorem runOps_inv (supply : Nat → String) (N : Nat)
    (hsup : ∀ i j, i < j → j < N → supply i ≠ supply j) :
    ∀ (ops : List Op) (s : EditorState),
      (ops.foldl (applyOp supply) s).counter ≤ N →
      (listIds s.fields).Nodup →
      (∀ id ∈ listIds s.fields, ∃ k, k < s.counter ∧ supply k = id) →
      (listIds (ops.foldl (applyOp supply) s).fields).Nodup := by
  intro ops
  induction ops with
  | nil => intro s _ hnd _; simpa using hnd
  | cons op rest ih =>
    intro s h hnd hmem
    rw [List.foldl_cons] at h ⊢
    have hle : (applyOp supply s op).counter ≤ N :=
      (foldl_counter_le supply rest _).trans h
    obtain ⟨hnd', hmem'⟩ := applyOp_inv supply N hsup s op hle hnd hmem
    exact ih _ h hnd' hmem'

/-! Serialization ignores the `collapsed` flag. -/

theorem convertAux_set (fields : List Field) (i : Nat) (f' : Field)
    (h : ∀ f, fields[i]? = some f → ∀ acc, convertStep f' acc = convertStep f acc) :
    ∀ acc, convertAux (fields.set i f') acc = convertAux fields acc := by
  induction fields generalizing i with
  | nil => intro acc; simp
  | cons g rest ih =>
    intro acc
    cases i with
    | zero =>
      rw [List.set_cons_zero, convertAux_cons, convertAux_cons, h g (by simp)]
    | succ n =>
      rw [List.set_cons_succ, convertAux_cons, convertAux_cons]
      exact ih n (fun f hf => h f (by simpa using hf)) _

theorem convertStep_toggleCollapsed (f : Field) (acc : List (String × JValue)) :
    convertStep (toggleCollapsed f) acc = convertStep f acc := by
  rcases f with ⟨i, k, t, c, cl⟩
  rcases t <;> rcases c <;> rfl

theorem convertStep_setChildren (f : Field) (cs cs' : List Field)
    (hc : f.children = some cs) (h : convertToJSON cs' = convertToJSON cs) :
    ∀ acc, convertStep (setChildren f cs') acc = convertStep f acc := by
  rcases f with ⟨i, k, t, c, cl⟩
  simp only [Field.children] at hc
  subst hc
  rcases t <;> intro acc <;>
    simp [convertStep, setChildren, entryOf, Field.id, Field.key, Field.type,
      Field.children, Field.collapsed, h]

theorem applyAtPath_toggle_convertAux :
    ∀ (path : List Nat) (fields : List Field) (acc : List (String × JValue)),
      convertAux (applyAtPath toggleCollapsed fields path) acc = convertAux fields acc := by
  intro path
  induction path with
  | nil => intro fields acc; rw [applyAtPath_nil]
  | cons i rest ih =>
    intro fields acc
    cases hfi : fields[i]? with
    | none => rw [applyAtPath_oob _ _ _ _ hfi]
    | some f =>
      cases rest with
      | nil =>
        rw [applyAtPath_last _ _ _ _ hfi]
        exact convertAux_set fields i _
          (fun f0 h0 => by
            rw [hfi] at h0; cases h0
            exact fun acc2 => convertStep_toggleCollapsed f acc2) acc
      | cons j rest' =>
        cases hc : f.children with
        | none => rw [applyAtPath_noChildren _ _ _ _ _ _ hfi hc]
        | some cs =>
          rw [applyAtPath_go _ _ _ _ _ _ _ hfi hc]
          refine convertAux_set fields i _ (fun f0 h0 => ?_) acc
          rw [hfi] at h0; cases h0
          exact convertStep_setChildren f cs _ hc (ih cs [])

/-! The source serializer agrees with the specification-side serializer
on trees whose containers all have a defined children array. -/

theorem convertAux_eq_serializeSpecAux (fields : List Field) (acc : List (String × JValue)) :
    containersHaveChildren fields = true →
    convertAux fields acc = serializeSpecAux fields acc := by
  induction fields, acc using convertAux.induct with
  | case1 acc => intro _; simp [convertAux, serializeSpecAux]
  | case2 i k c cl rest acc ih =>
    intro h
    simp only [containersHaveChildren] at h
    simp only [convertAux, serializeSpecAux]
    exact ih h
  | case3 i k c cl rest acc ih =>
    intro h
    simp only [containersHaveChildren] at h
    simp only [convertAux, serializeSpecAux]
    exact ih h
  | case4 i k cs cl rest acc ih1 ih2 =>
    intro h
    simp only [containersHaveChildren, Bool.and_eq_true] at h
    simp only [convertAux, serializeSpecAux]
    rw [ih2 h.2, ih1 h.1]
  | case5 i k cl rest acc ih =>
    intro h
    simp only [containersHaveChildren] at h
    exact absurd h (by simp)

/-! Claim theorems. -/

/-- C1: `convertToJSON` processes the nodes in order and produces the
mapping in which each String node contributes `key → "string"`, each
Number node contributes `key → 42`, and each Container node contributes
`key → serialize(children)` recursively: on every tree whose containers
carry a children array (all trees the editor builds), it coincides with
the serializer written exactly as the specification words it. -/
theorem claim1_serialize_defaults (fields : List Field)
    (h : containersHaveChildren fields = true) :
    convertToJSON fields = serializeSpec fields :=
  convertAux_eq_serializeSpecAux fields [] h

/-- C1 witness: the flat String/Number example and the nested example,
with the serializer's concrete output. -/
theorem claim1_serialize_defaults_witness :
    convertToJSON [Field.mk "i1" "a" .string none (some false),
        Field.mk "i2" "b" .number none (some false)] =
      serializeSpec [Field.mk "i1" "a" .string none (some false),
        Field.mk "i2" "b" .number none (some false)] ∧
    convertToJSON [Field.mk "i1" "a" .nested
        (some [Field.mk "i2" "b" .number none (some false)]) (some false)] =
      serializeSpec [Field.mk "i1" "a" .nested
        (some [Field.mk "i2" "b" .number none (some false)]) (some false)] ∧
    convertToJSON [Field.mk "i1" "a" .string none (some false),
        Field.mk "i2" "b" .number none (some false)] =
      [("a", JValue.str "string"), ("b", JValue.num 42)] ∧
    convertToJSON [Field.mk "i1" "a" .nested
        (some [Field.mk "i2" "b" .number none (some false)]) (some false)] =
      [("a", JValue.obj [("b", JValue.num 42)])] :=
  ⟨claim1_serialize_defaults _ (by simp [containersHaveChildren]),
   claim1_serialize_defaults _ (by simp [containersHaveChildren]),
   by simp [convertToJSON, convertAux, objInsert],
   by simp [convertToJSON, convertAux, objInsert]⟩

/-- C2 counterexample: `generateId` is `Math.random().toString(36).substr(2, 9)`;
modelling its successive outputs faithfully as an arbitrary stream, the
claim fails as stated: a stream that repeats (here constantly `"x"`)
makes two created nodes share an id. -/
theorem claim2_counterexample :
    ¬ (listIds (runOps (fun _ => "x")
        [Op.addRoot .string, Op.addRoot .string]).fields).Nodup := by
  simp [runOps, applyOp, createNewField, listIds_cons, listIds_nil, fieldIds_mk_none]

/-- C2 (amended): provided the id generator never returns the same
string twice during the run (`Math.random` collisions are merely
improbable, not impossible), every node id in the tree reached by any
sequence of create, retype and delete operations from the empty tree is
unique. -/
theorem claim2_ids_unique (supply : Nat → String) (ops : List Op)
    (h : ((List.range (runOps supply ops).counter).map supply).Nodup) :
    (listIds (runOps supply ops).fields).Nodup := by
  have hsup : ∀ i j, i < j → j < (runOps supply ops).counter → supply i ≠ supply j := by
    intro i j hij hj he
    have hp : List.Pairwise (fun a b => a ≠ b)
        ((List.range (runOps supply ops).counter).map supply) := h
    rw [List.pairwise_map, List.pairwise_iff_getElem] at hp
    have := hp i j (by simpa using lt_trans hij hj) (by simpa using hj) hij
    simp only [List.getElem_range] at this
    exact this he
  exact runOps_inv supply _ hsup ops ⟨[], 0⟩ (le_refl _)
    (by simp [listIds_nil]) (by simp [listIds_nil])

/-- C2 witness: a run of two creates under an injective id supply. -/
theorem claim2_ids_unique_witness :
    ((List.range (runOps (fun n => String.mk (List.replicate n 'a'))
        [Op.addRoot .string, Op.addRoot .string]).counter).map
      (fun n => String.mk (List.replicate n 'a'))).Nodup ∧
    (listIds (runOps (fun n => String.mk (List.replicate n 'a'))
        [Op.addRoot .string, Op.addRoot .string]).fields).Nodup :=
  ⟨by decide, claim2_ids_unique _ _ (by decide)⟩

/-- C3: duplicate sibling keys are resolved last-write-wins: whenever a
node `f` contributes an entry and no later sibling carries its key, the
output maps `f.key` to `f`'s entry, overwriting whatever any earlier
sibling (in particular one with the same key) contributed; the function
is total, so no error is ever raised. -/
theorem claim3_last_write_wins (pre post : List Field) (f : Field) (v : JValue)
    (hv : entryOf f = some v) (hpost : ∀ g ∈ post, g.key ≠ f.key) :
    objLookup (convertToJSON (pre ++ f :: post)) f.key = some v := by
  rw [convertToJSON, convertAux_append, convertAux_cons,
    objLookup_convertAux_of_no_key post _ _ hpost]
  simp only [convertStep, hv]
  exact objLookup_objInsert_self _ _ _

/-- C3 witness: the specification's P7 example,
`serialize([{a, String}, {a, Number}])` maps `"a"` to `42`. -/
theorem claim3_last_write_wins_witness :
    objLookup (convertToJSON [Field.mk "i1" "a" .string none (some false),
      Field.mk "i2" "a" .number none (some false)]) "a" = some (JValue.num 42) := by
  have := claim3_last_write_wins [Field.mk "i1" "a" .string none (some false)] []
    (Field.mk "i2" "a" .number none (some false)) (JValue.num 42) rfl (by simp)
  simpa [Field.key] using this

/-- C4: toggling `collapsed` on the container node at any path leaves
the serialized document unchanged. -/
theorem claim4_toggle_invisible (fields : List Field) (path : List Nat) (f : Field)
    (_hf : nodeAtPath fields path = some f) (_ht : f.type = .nested) :
    convertToJSON (applyAtPath toggleCollapsed fields path) = convertToJSON fields :=
  applyAtPath_toggle_convertAux path fields []

/-- C4 witness: toggling the container at path `[0]` of a concrete tree. -/
theorem claim4_toggle_invisible_witness :
    nodeAtPath [Field.mk "i1" "a" .nested
        (some [Field.mk "i2" "b" .number none (some false)]) (some false)] [0] =
      some (Field.mk "i1" "a" .nested
        (some [Field.mk "i2" "b" .number none (some false)]) (some false)) ∧
    (Field.mk "i1" "a" .nested
        (some [Field.mk "i2" "b" .number none (some false)]) (some false)).type =
      .nested ∧
    convertToJSON (applyAtPath toggleCollapsed
        [Field.mk "i1" "a" .nested
          (some [Field.mk "i2" "b" .number none (some false)]) (some false)] [0]) =
      convertToJSON [Field.mk "i1" "a" .nested
        (some [Field.mk "i2" "b" .number none (some false)]) (some false)] :=
  ⟨by rw [nodeAtPath_last]; rfl, rfl,
   claim4_toggle_invisible _ [0]
     (Field.mk "i1" "a" .nested
       (some [Field.mk "i2" "b" .number none (some false)]) (some false))
     (by rw [nodeAtPath_last]; rfl) rfl⟩

/-- C5: retyping any node to Container resets `children` to the empty
sequence and `collapsed` to false, discarding prior children (also in
the Container-to-Container case, since the node is arbitrary here). -/
theorem claim5_retype_resets (f : Field) :
    (handleTypeChange .nested f).children = some [] ∧
    (handleTypeChange .nested f).collapsed = some false := by
  simp [handleTypeChange, Field.children, Field.collapsed]

/-- C6 counterexample: `createNewField` sets `collapsed: false`
unconditionally, so a freshly created String node carries
`collapsed = false` instead of leaving the property absent as the claim
states for primitive kinds. -/
theorem claim6_counterexample :
    ¬ ((createNewField "a" .string).collapsed = none) := by
  simp [createNewField, Field.collapsed]

/-- C6 (amended): `create(kind)` returns a node carrying the freshly
generated id, `key = ""`, `children = []` iff `kind = Container`
(absent otherwise), and `collapsed = false` for every kind — also for
primitives; the operation has no failure modes. -/
theorem claim6_create_spec (id : String) (t : FieldType) :
    (createNewField id t).id = id ∧
    (createNewField id t).key = "" ∧
    (createNewField id t).children = (if t = .nested then some [] else none) ∧
    (createNewField id t).collapsed = some false := by
  simp [createNewField, Field.id, Field.key, Field.children, Field.collapsed]

/-- C7: `setKey` trims surrounding whitespace; a whitespace-only value
is rejected leaving the node unchanged, otherwise the returned node
carries the trimmed key and all other properties unchanged. -/
theorem claim7_setKey (f : Field) (newKey : String) :
    (jsTrim newKey = "" → handleKeyUpdate f newKey = f) ∧
    (jsTrim newKey ≠ "" →
      handleKeyUpdate f newKey =
        .mk f.id (jsTrim newKey) f.type f.children f.collapsed) := by
  constructor
  · intro h; simp [handleKeyUpdate, h]
  · intro h; simp [handleKeyUpdate, h]

/-- C7 witness: `setKey(node, "   ")` is rejected and
`setKey(node, "  x ")` yields key `"x"`. -/
theorem claim7_setKey_witness :
    handleKeyUpdate (Field.mk "a" "k" .string none (some false)) "   " =
      Field.mk "a" "k" .string none (some false) ∧
    (handleKeyUpdate (Field.mk "a" "k" .string none (some false)) "  x ").key = "x" :=
  ⟨(claim7_setKey _ "   ").1 (by decide),
   by rw [(claim7_setKey (Field.mk "a" "k" .string none (some false)) "  x ").2 (by decide)]
      decide⟩

/-- C8 counterexample: retyping a freshly created String node to String
is not deep-equal to the original: creation stores `collapsed: false`
and the retype deletes that property. -/
theorem claim8_counterexample :
    handleTypeChange .string (createNewField "a" .string) ≠ createNewField "a" .string := by
  intro h
  have h2 := congrArg Field.collapsed h
  simp [handleTypeChange, createNewField, Field.collapsed] at h2

/-- C8 (amended): retyping a primitive node to its own kind returns the
node with `children` and `collapsed` removed and id, key and kind
unchanged — deep-equal to the original exactly when those two
properties are already absent, as they are after any earlier retype to
a primitive kind. -/
theorem claim8_retype_noop (f : Field) (hp : f.type = .string ∨ f.type = .number)
    (hc : f.children = none) (hcl : f.collapsed = none) :
    handleTypeChange f.type f = f := by
  rcases f with ⟨i, k, t, c, cl⟩
  simp only [Field.type] at hp
  simp only [Field.children] at hc
  simp only [Field.collapsed] at hcl
  subst hc; subst hcl
  rcases hp with h | h <;> subst h <;> rfl

/-- C8 witness: a String node without children/collapsed properties is
returned unchanged by a String-to-String retype. -/
theorem claim8_retype_noop_witness :
    handleTypeChange .string (Field.mk "a" "k" .string none none) =
      Field.mk "a" "k" .string none none :=
  claim8_retype_noop (Field.mk "a" "k" .string none none) (Or.inl rfl) rfl rfl

/-- C9: retype, setKey and toggleCollapsed all preserve the node's id. -/
theorem claim9_id_stable (f : Field) (t : FieldType) (newKey : String) :
    (handleTypeChange t f).id = f.id ∧
    (handleKeyUpdate f newKey).id = f.id ∧
    (toggleCollapsed f).id = f.id := by
  refine ⟨?_, ?_, ?_⟩
  · by_cases h : t = .nested <;> simp [handleTypeChange, h, Field.id]
  · by_cases h : jsTrim newKey = "" <;> simp [handleKeyUpdate, h, Field.id]
  · simp [toggleCollapsed, Field.id]

/-- C10: a Container node whose `children` property is undefined
contributes nothing to the serialization — the output equals that of the
sequence without the node, and when no other sibling carries its key,
the key is absent from the output entirely (rather than mapped to an
empty document). -/
theorem claim10_childless_container_omitted (pre post : List Field) (f : Field)
    (ht : f.type = .nested) (hc : f.children = none) :
    convertToJSON (pre ++ f :: post) = convertToJSON (pre ++ post) ∧
    ((∀ g ∈ pre, g.key ≠ f.key) → (∀ g ∈ post, g.key ≠ f.key) →
      objLookup (convertToJSON (pre ++ f :: post)) f.key = none) := by
  have heq : convertToJSON (pre ++ f :: post) = convertToJSON (pre ++ post) := by
    rw [convertToJSON, convertToJSON, convertAux_append, convertAux_append,
      convertAux_cons]
    rcases f with ⟨i, k, t, c, cl⟩
    simp only [Field.type] at ht
    simp only [Field.children] at hc
    subst ht; subst hc
    rfl
  refine ⟨heq, fun hpre hpost => ?_⟩
  rw [heq, convertToJSON]
  rw [objLookup_convertAux_of_no_key (pre ++ post) [] f.key ?_]
  · rfl
  · intro g hg
    rcases List.mem_append.mp hg with h | h
    · exact hpre g h
    · exact hpost g h

/-- C10 witness: a childless container between two primitive siblings
vanishes from the output, and alone it yields the empty document. -/
theorem claim10_childless_container_omitted_witness :
    convertToJSON [Field.mk "i1" "b" .string none (some false),
        Field.mk "i2" "a" .nested none (some false)] =
      convertToJSON [Field.mk "i1" "b" .string none (some false)] ∧
    objLookup (convertToJSON [Field.mk "i1" "b" .string none (some false),
        Field.mk "i2" "a" .nested none (some false)]) "a" = none := by
  have h := claim10_childless_container_omitted
    [Field.mk "i1" "b" .string none (some false)] []
    (Field.mk "i2" "a" .nested none (some false)) rfl rfl
  exact ⟨h.1, by simpa [Field.key] using h.2 (by simp [Field.key]) (by simp)⟩

end Schema
